import Mathlib

set_option linter.unusedVariables false

/-!
Verification of the CPU scheduling simulator (`src/proceso.py`,
`src/scheduler.py`, `src/metrics.py`) against its specification.

The Python code is shallowly embedded: Python `int` becomes `Int`,
`None`-able fields become `Option Int`, dictionaries become insertion
ordered association lists, exceptions become `Except String`, float
division in the metric averages becomes exact division in `ℚ`.
-/

/-- Embeds the `Proceso` record of `src/proceso.py` (fields in source order). -/
structure Proceso where
  pid : String
  duracion : Int
  prioridad : Int
  tiempo_llegada : Int
  tiempo_restante : Int
  tiempo_inicio : Option Int
  tiempo_fin : Option Int
deriving Repr, DecidableEq

/-- The test `pid.strip() == ""`: stripping leading and trailing whitespace
leaves the empty string exactly when every character is whitespace. -/
def stripEmpty (s : String) : Bool := s.data.all Char.isWhitespace

/-- Embeds `Proceso.__init__`.  The Python `isinstance(..., int)` checks are
discharged by the types of the embedding (`duracion prioridad tiempo_llegada :
Int`); the remaining guards are translated verbatim, including the redundant
`not pid` test subsumed by the `pid.strip() == ""` test. -/
def mkProceso (pid : String) (duracion prioridad tiempo_llegada : Int) :
    Except String Proceso :=
  if pid = "" ∨ stripEmpty pid then Except.error "El PID no puede estar vacío"
  else if duracion ≤ 0 then Except.error "La duración debe ser un entero positivo"
  else if tiempo_llegada < 0 then
    Except.error "El tiempo de llegada debe ser un entero no negativo"
  else Except.ok ⟨pid, duracion, prioridad, tiempo_llegada, duracion, none, none⟩

/-- A process is valid when it is exactly what a successful `Proceso.__init__`
(or `reiniciar`) produces: validated identity and timing fields in the fresh,
unexecuted state. -/
def Proceso.Valid (p : Proceso) : Prop :=
  stripEmpty p.pid = false ∧ 1 ≤ p.duracion ∧ 0 ≤ p.tiempo_llegada ∧
  p.tiempo_restante = p.duracion ∧ p.tiempo_inicio = none ∧ p.tiempo_fin = none

instance (p : Proceso) : Decidable p.Valid := by
  unfold Proceso.Valid; infer_instance

/-- Embeds the persisted record shape produced by `Proceso.to_dict`: exactly the
keys `pid`, `duracion`, `prioridad`, `tiempo_llegada`; the last one is optional
on the reading side because `from_dict` uses `data.get('tiempo_llegada', 0)`. -/
structure PDict where
  pid : String
  duracion : Int
  prioridad : Int
  tiempo_llegada : Option Int
deriving Repr, DecidableEq

/-- Embeds `Proceso.to_dict`. -/
def Proceso.to_dict (p : Proceso) : PDict :=
  ⟨p.pid, p.duracion, p.prioridad, some p.tiempo_llegada⟩

/-- Embeds `Proceso.from_dict`: reconstruction goes through the validating
constructor, with `tiempo_llegada` defaulting to 0 when absent. -/
def Proceso.from_dict (d : PDict) : Except String Proceso :=
  mkProceso d.pid d.duracion d.prioridad (d.tiempo_llegada.getD 0)

/-- Gantt entries are `(pid, tiempo_inicio, tiempo_fin)` triples
(`GanttEntry` in `src/scheduler.py`). -/
abbrev GanttEntry := String × Int × Int

/-- Duration of a Gantt segment. -/
def segDur (g : GanttEntry) : Int := g.2.2 - g.2.1

/-- Result of `planificar`: the returned Gantt list together with the caller's
process list after the final publication loop mutated it. -/
structure SchedResult where
  gantt : List GanttEntry
  procesos : List Proceso
deriving Repr, DecidableEq

/-- Embeds `procesos_copia.sort(key=lambda p: p.tiempo_llegada)`: Python's
`list.sort` is a stable ascending sort by key, which insertion sort with a
non-strict comparison implements exactly. -/
def sortLlegada (l : List Proceso) : List Proceso :=
  l.insertionSort (fun a b => a.tiempo_llegada ≤ b.tiempo_llegada)

/-- Embeds the `for proceso in procesos_copia` loop of `FCFSScheduler.planificar`,
threading the clock `tiempo_actual` and returning the emitted Gantt entries
together with the mutated copies in order. -/
def fcfsLoop : Int → List Proceso → List GanttEntry × List Proceso
  | _, [] => ([], [])
  | tiempo_actual, p :: rest =>
    let t1 := if tiempo_actual < p.tiempo_llegada then p.tiempo_llegada else tiempo_actual
    let p1 := if p.tiempo_inicio = none then { p with tiempo_inicio := some t1 } else p
    let tiempo_fin := t1 + p.duracion
    let p2 := { p1 with tiempo_fin := some tiempo_fin, tiempo_restante := 0 }
    let r := fcfsLoop tiempo_fin rest
    ((p.pid, t1, tiempo_fin) :: r.1, p2 :: r.2)

/-- Embeds the final `for i, proceso_original in enumerate(procesos)` loop of
both schedulers: position `i` of the caller's list receives `tiempo_inicio`,
`tiempo_fin` of position `i` of the internal copy list, and `tiempo_restante` 0. -/
def publish (orig copia : List Proceso) : List Proceso :=
  List.zipWith
    (fun o c => { o with tiempo_inicio := c.tiempo_inicio,
                         tiempo_fin := c.tiempo_fin, tiempo_restante := 0 })
    orig copia

/-- Embeds `FCFSScheduler.planificar`.  Note the publication loop reads the
copy list after it was sorted by arrival, pairing positions of the unsorted
caller list with positions of the sorted copy. -/
def fcfsPlanificar (procesos : List Proceso) : SchedResult :=
  if procesos.isEmpty then ⟨[], procesos⟩
  else
    let copia := sortLlegada procesos
    let r := fcfsLoop 0 copia
    ⟨r.1, publish procesos r.2⟩

/-- Embeds the `RoundRobinScheduler` object: its only state is `quantum`. -/
structure RoundRobinScheduler where
  quantum : Int
deriving Repr, DecidableEq

/-- Default value of the `quantum` parameter in `RoundRobinScheduler.__init__`. -/
def rrDefaultQuantum : Int := 4

/-- Embeds `RoundRobinScheduler.__init__` with its `quantum <= 0` guard. -/
def mkRoundRobinScheduler (quantum : Int) : Except String RoundRobinScheduler :=
  if quantum ≤ 0 then Except.error "El quantum debe ser un entero positivo"
  else Except.ok ⟨quantum⟩

/-- Tags each queue entry with the index of the process in the caller's list,
modelling Python object identity between `cola` entries and `procesos_copia`. -/
def enumQueue : Nat → List Proceso → List (Nat × Proceso)
  | _, [] => []
  | n, p :: rest => (n, p) :: enumQueue (n + 1) rest

/-- Fuel bound for the Round-Robin loop: with a positive quantum each queue
entry is dequeued at most `tiempo_restante` times before leaving the queue,
plus once for entries that arrive with non-positive remaining time. -/
def rrMeasure (queue : List (Nat × Proceso)) : Nat :=
  (queue.map (fun e => e.2.tiempo_restante.toNat + 1)).sum

/-- Embeds the `while cola:` loop of `RoundRobinScheduler.planificar`.  To keep
the embedding a total function it is fuel-indexed; `rrLoop_leftover_nil` below
proves that `rrMeasure` fuel always suffices for a positive quantum, matching
the Python loop's termination.  Returns the emitted Gantt entries, the finished
processes tagged with their original index, and the queue left when fuel runs
out (always `[]` in the cases reachable from `rrPlanificar`). -/
def rrLoop (q : Int) :
    Nat → Int → List (Nat × Proceso) →
    List GanttEntry × List (Nat × Proceso) × List (Nat × Proceso)
  | 0, _, queue => ([], [], queue)
  | _ + 1, _, [] => ([], [], [])
  | fuel + 1, tiempo_actual, (i, p) :: rest =>
    let t1 := if tiempo_actual < p.tiempo_llegada then p.tiempo_llegada else tiempo_actual
    let p1 := if p.tiempo_inicio = none then { p with tiempo_inicio := some t1 } else p
    let tiempo_ejecucion := min q p.tiempo_restante
    let tiempo_fin := t1 + tiempo_ejecucion
    let p2 := { p1 with tiempo_restante := p.tiempo_restante - tiempo_ejecucion }
    if 0 < p.tiempo_restante - tiempo_ejecucion then
      let r := rrLoop q fuel tiempo_fin (rest ++ [(i, p2)])
      ((p.pid, t1, tiempo_fin) :: r.1, r.2.1, r.2.2)
    else
      let p3 := { p2 with tiempo_fin := some tiempo_fin }
      let r := rrLoop q fuel tiempo_fin rest
      ((p.pid, t1, tiempo_fin) :: r.1, (i, p3) :: r.2.1, r.2.2)

/-- Looks up the finished state of the process at original index `i`,
modelling that Python mutates the very objects held by `procesos_copia`. -/
def lookupIdx (i : Nat) (l : List (Nat × Proceso)) : Option Proceso :=
  (l.find? (fun e => e.1 = i)).map (fun e => e.2)

/-- Embeds `RoundRobinScheduler.planificar` for a scheduler with quantum `q`. -/
def rrPlanificar (q : Int) (procesos : List Proceso) : SchedResult :=
  if procesos.isEmpty then ⟨[], procesos⟩
  else
    let queue := enumQueue 0 procesos
    let r := rrLoop q (rrMeasure queue) 0 queue
    let copiaFinal := (enumQueue 0 procesos).map
      (fun e => (lookupIdx e.1 r.2.1).getD e.2)
    ⟨r.1, publish procesos copiaFinal⟩

/-- Membership test of a Python dict modelled as an association list. -/
def dictContains (d : List (String × α)) (k : String) : Bool :=
  d.any (fun e => e.1 = k)

/-- Lookup in a Python dict modelled as an association list. -/
def dictGet? (d : List (String × α)) (k : String) : Option α :=
  (d.find? (fun e => e.1 = k)).map (fun e => e.2)

/-- `d[k] = v` on a Python dict: overwrites in place if the key exists
(keeping its position, as Python dicts do), otherwise appends. -/
def dictUpsert (d : List (String × α)) (k : String) (v : α) : List (String × α) :=
  if dictContains d k then d.map (fun e => if e.1 = k then (k, v) else e)
  else d ++ [(k, v)]

/-- One iteration of the first loop of `calcular_metricas`:
`if pid not in primer_inicio: primer_inicio[pid] = inicio` (first write wins)
and `ultimo_fin[pid] = fin` (last write wins). -/
def buildStep (acc : List (String × Int) × List (String × Int)) (e : GanttEntry) :
    List (String × Int) × List (String × Int) :=
  (if dictContains acc.1 e.1 then acc.1 else acc.1 ++ [(e.1, e.2.1)],
    dictUpsert acc.2 e.1 e.2.2)

/-- Embeds the first loop of `calcular_metricas`, building the dicts
`primer_inicio` and `ultimo_fin`. -/
def buildDicts (gantt : List GanttEntry) : List (String × Int) × List (String × Int) :=
  gantt.foldl buildStep ([], [])

/-- Embeds one entry of the `metricas_individuales` dict. -/
structure MetricaIndividual where
  tiempo_respuesta : Int
  tiempo_espera : Int
  tiempo_retorno : Int
  duracion : Int
  tiempo_llegada : Int
deriving Repr, DecidableEq

/-- Embeds the dictionary returned by `calcular_metricas`. -/
structure Metricas where
  metricas_individuales : List (String × MetricaIndividual)
  tiempo_respuesta_promedio : ℚ
  tiempo_espera_promedio : ℚ
  tiempo_retorno_promedio : ℚ
deriving Repr, DecidableEq

/-- Embeds the `for proceso in procesos` loop of `calcular_metricas`,
accumulating the individual-metric dict and the three lists of values. -/
def metricasLoop (d : List (String × Int) × List (String × Int)) :
    List Proceso →
    List (String × MetricaIndividual) × List Int × List Int × List Int →
    List (String × MetricaIndividual) × List Int × List Int × List Int
  | [], acc => acc
  | p :: rest, acc =>
    match dictGet? d.1 p.pid, dictGet? d.2 p.pid with
    | some inicio, some fin =>
      let tiempo_respuesta := inicio - p.tiempo_llegada
      let tiempo_retorno := fin - p.tiempo_llegada
      let tiempo_espera := tiempo_retorno - p.duracion
      metricasLoop d rest
        (dictUpsert acc.1 p.pid
            ⟨tiempo_respuesta, tiempo_espera, tiempo_retorno, p.duracion, p.tiempo_llegada⟩,
          acc.2.1 ++ [tiempo_respuesta], acc.2.2.1 ++ [tiempo_espera],
          acc.2.2.2 ++ [tiempo_retorno])
    | _, _ => metricasLoop d rest acc

/-- Embeds `MetricasCalculator.calcular_metricas`. -/
def calcularMetricas (procesos : List Proceso) (gantt : List GanttEntry) : Metricas :=
  if procesos.isEmpty || gantt.isEmpty then ⟨[], 0, 0, 0⟩
  else
    let d := buildDicts gantt
    let r := metricasLoop d procesos ([], [], [], [])
    let n := r.2.1.length
    ⟨r.1,
      if 0 < n then (r.2.1.sum : ℚ) / (n : ℚ) else 0,
      if 0 < n then (r.2.2.1.sum : ℚ) / (n : ℚ) else 0,
      if 0 < n then (r.2.2.2.sum : ℚ) / (n : ℚ) else 0⟩

/-- Number of quantum slices a burst of `r` needs under quantum `q`:
the ceiling of `r / q` as stated in the spec. -/
def cldiv (r q : Nat) : Nat := (r + q - 1) / q

/-- Sequence of slice lengths Round-Robin grants a process that still needs
`r` units under quantum `q`: full quanta followed by one final short slice. -/
def rrSlices (q r : Nat) : List Nat :=
  if q = 0 ∨ r ≤ q then [r] else q :: rrSlices q (r - q)
termination_by r
decreasing_by
  rename_i h
  rw [not_or] at h
  omega

/-! ### Small facts about the conditional start-time update -/

theorem iteInicio_pid (c : Prop) [Decidable c] (p : Proceso) (t : Int) :
    (if c then { p with tiempo_inicio := some t } else p).pid = p.pid := by
  split <;> rfl

theorem iteInicio_duracion (c : Prop) [Decidable c] (p : Proceso) (t : Int) :
    (if c then { p with tiempo_inicio := some t } else p).duracion = p.duracion := by
  split <;> rfl

theorem iteInicio_restante (c : Prop) [Decidable c] (p : Proceso) (t : Int) :
    (if c then { p with tiempo_inicio := some t } else p).tiempo_restante =
      p.tiempo_restante := by
  split <;> rfl

theorem iteInicio_llegada (c : Prop) [Decidable c] (p : Proceso) (t : Int) :
    (if c then { p with tiempo_inicio := some t } else p).tiempo_llegada =
      p.tiempo_llegada := by
  split <;> rfl

/-! ### FCFS lemmas -/

theorem fcfsLoop_map_pid : ∀ (t : Int) (ps : List Proceso),
    (fcfsLoop t ps).1.map (fun g => g.1) = ps.map Proceso.pid
  | _, [] => rfl
  | t, p :: rest => by
    simp only [fcfsLoop, List.map_cons]
    rw [fcfsLoop_map_pid _ rest]

theorem fcfsLoop_map_dur : ∀ (t : Int) (ps : List Proceso),
    (fcfsLoop t ps).1.map segDur = ps.map Proceso.duracion
  | _, [] => rfl
  | t, p :: rest => by
    simp only [fcfsLoop, List.map_cons, segDur, add_sub_cancel_left]
    rw [fcfsLoop_map_dur _ rest]

theorem fcfsPlanificar_gantt (ps : List Proceso) :
    (fcfsPlanificar ps).gantt = (fcfsLoop 0 (sortLlegada ps)).1 := by
  cases ps with
  | nil => rfl
  | cons p rest => rfl

/-- Claim C1: FCFS stably sorts a working copy by arrival, then sweeps a clock
from 0 emitting one segment per process whose duration is its burst; hence the
Gantt has one entry per input process, in sorted order, with the stated
concrete outcome for P1(5,0), P2(3,0), P3(8,0). -/
theorem fcfs_planificar_correct (ps : List Proceso) (hv : ∀ p ∈ ps, p.Valid) :
    (fcfsPlanificar ps).gantt.map (fun g => g.1) = (sortLlegada ps).map Proceso.pid ∧
    (fcfsPlanificar ps).gantt.map segDur = (sortLlegada ps).map Proceso.duracion ∧
    (fcfsPlanificar ps).gantt.length = ps.length ∧
    (fcfsPlanificar
        [⟨"P1", 5, 1, 0, 5, none, none⟩, ⟨"P2", 3, 2, 0, 3, none, none⟩,
          ⟨"P3", 8, 1, 0, 8, none, none⟩]).gantt =
      [("P1", 0, 5), ("P2", 5, 8), ("P3", 8, 16)] := by
  refine ⟨?_, ?_, ?_, by decide⟩
  · rw [fcfsPlanificar_gantt]; exact fcfsLoop_map_pid 0 _
  · rw [fcfsPlanificar_gantt]; exact fcfsLoop_map_dur 0 _
  · have h := congrArg List.length (fcfsLoop_map_pid 0 (sortLlegada ps))
    simp only [List.length_map] at h
    rw [fcfsPlanificar_gantt, h, sortLlegada, List.length_insertionSort]

/-- Witness for C1 at the concrete three-process scenario. -/
theorem fcfs_planificar_correct_witness :
    (fcfsPlanificar
        [⟨"P1", 5, 1, 0, 5, none, none⟩, ⟨"P2", 3, 2, 0, 3, none, none⟩,
          ⟨"P3", 8, 1, 0, 8, none, none⟩]).gantt =
      [("P1", 0, 5), ("P2", 5, 8), ("P3", 8, 16)] :=
  (fcfs_planificar_correct
    [⟨"P1", 5, 1, 0, 5, none, none⟩, ⟨"P2", 3, 2, 0, 3, none, none⟩,
      ⟨"P3", 8, 1, 0, 8, none, none⟩] (by decide)).2.2.2

/-- Claim C10: `RoundRobinScheduler` built without a quantum argument gets the
default quantum 4 and passes validation. -/
theorem rr_default_quantum :
    rrDefaultQuantum = 4 ∧
      mkRoundRobinScheduler rrDefaultQuantum = Except.ok ⟨4⟩ := by
  exact ⟨rfl, rfl⟩

/-- Claim C9: `to_dict` keeps exactly the four persisted fields, the round trip
through `from_dict` restores a valid process exactly (fresh state included),
and a record without `tiempo_llegada` loads with arrival 0. -/
theorem to_dict_roundtrip (p : Proceso) (hp : p.Valid) :
    Proceso.to_dict p = ⟨p.pid, p.duracion, p.prioridad, some p.tiempo_llegada⟩ ∧
    Proceso.from_dict (Proceso.to_dict p) = Except.ok p ∧
    (∀ d : PDict, d.tiempo_llegada = none →
      Proceso.from_dict d = mkProceso d.pid d.duracion d.prioridad 0) := by
  obtain ⟨h1, h2, h3, h4, h5, h6⟩ := hp
  refine ⟨rfl, ?_, ?_⟩
  · simp only [Proceso.from_dict, Proceso.to_dict, mkProceso, Option.getD_some]
    rw [if_neg, if_neg, if_neg]
    · cases p
      simp_all
    · omega
    · omega
    · rintro (h | h)
      · rw [h] at h1
        exact absurd h1 (by decide)
      · rw [h] at h1
        exact absurd h1 (by decide)
  · intro d hd
    simp [Proceso.from_dict, hd]

/-- Witness for C9 at a concrete valid process. -/
theorem to_dict_roundtrip_witness :
    Proceso.from_dict (Proceso.to_dict ⟨"P1", 5, 1, 2, 5, none, none⟩) =
      Except.ok ⟨"P1", 5, 1, 2, 5, none, none⟩ :=
  (to_dict_roundtrip ⟨"P1", 5, 1, 2, 5, none, none⟩ (by decide)).2.1

/-! ### Round-Robin termination -/

theorem rrMeasure_nil : rrMeasure [] = 0 := rfl

theorem rrMeasure_cons (i : Nat) (p : Proceso) (rest : List (Nat × Proceso)) :
    rrMeasure ((i, p) :: rest) = p.tiempo_restante.toNat + 1 + rrMeasure rest := by
  simp [rrMeasure]

theorem rrMeasure_append (a b : List (Nat × Proceso)) :
    rrMeasure (a ++ b) = rrMeasure a + rrMeasure b := by
  simp [rrMeasure]

/-- With a positive quantum, `rrMeasure` fuel always suffices: the Round-Robin
loop drains its queue completely, which is the termination argument of the
`while cola:` loop. -/
theorem rrLoop_leftover_nil (q : Int) (hq : 1 ≤ q) :
    ∀ (fuel : Nat) (clock : Int) (queue : List (Nat × Proceso)),
      rrMeasure queue ≤ fuel → (rrLoop q fuel clock queue).2.2 = [] := by
  intro fuel
  induction fuel with
  | zero =>
    intro clock queue hm
    cases queue with
    | nil => rfl
    | cons e rest =>
      rw [rrMeasure_cons e.1 e.2] at hm
      omega
  | succ fuel ih =>
    intro clock queue hm
    cases queue with
    | nil => rfl
    | cons e rest =>
      obtain ⟨i, p⟩ := e
      rw [rrMeasure_cons] at hm
      simp only [rrLoop]
      rcases le_total q p.tiempo_restante with hle | hle
      · rw [min_eq_left hle]
        split
        · rename_i hpos
          apply ih
          rw [rrMeasure_append, rrMeasure_cons, rrMeasure_nil]
          try dsimp only
          omega
        · apply ih
          omega
      · rw [min_eq_right hle]
        split
        · rename_i hpos
          omega
        · apply ih
          omega

/-- Branch-level characterization of `mkProceso`: the redundant `pid = ""` test
collapses into the blank test, leaving one error per violated constraint. -/
theorem mkProceso_eq (pid : String) (dur prio lleg : Int) :
    mkProceso pid dur prio lleg =
      if stripEmpty pid then Except.error "El PID no puede estar vacío"
      else if dur ≤ 0 then Except.error "La duración debe ser un entero positivo"
      else if lleg < 0 then Except.error "El tiempo de llegada debe ser un entero no negativo"
      else Except.ok ⟨pid, dur, prio, lleg, dur, none, none⟩ := by
  unfold mkProceso
  by_cases c : stripEmpty pid = true
  · rw [if_pos (Or.inr c), if_pos c]
  · rw [if_neg, if_neg c]
    rintro (h | h)
    · rw [h] at c
      exact c rfl
    · exact c h

/-- Claim C7: construction raises exactly on blank id, non-positive burst or
negative arrival (with the corresponding message), `RoundRobinScheduler`
raises exactly on quantum ≤ 0, and with valid processes and a valid quantum
the scheduling loop runs to completion without any error path. -/
theorem construction_validation (pid : String) (dur prio lleg q0 q : Int)
    (ps : List Proceso) (hq : 1 ≤ q) (hv : ∀ p ∈ ps, p.Valid) :
    ((∃ e, mkProceso pid dur prio lleg = Except.error e) ↔
      (stripEmpty pid = true ∨ dur ≤ 0 ∨ lleg < 0)) ∧
    (stripEmpty pid = true →
      mkProceso pid dur prio lleg = Except.error "El PID no puede estar vacío") ∧
    (stripEmpty pid = false → dur ≤ 0 →
      mkProceso pid dur prio lleg = Except.error "La duración debe ser un entero positivo") ∧
    (stripEmpty pid = false → 0 < dur → lleg < 0 →
      mkProceso pid dur prio lleg =
        Except.error "El tiempo de llegada debe ser un entero no negativo") ∧
    ((∃ e, mkRoundRobinScheduler q0 = Except.error e) ↔ q0 ≤ 0) ∧
    (rrLoop q (rrMeasure (enumQueue 0 ps)) 0 (enumQueue 0 ps)).2.2 = [] := by
  have hrr := rrLoop_leftover_nil q hq (rrMeasure (enumQueue 0 ps)) 0 (enumQueue 0 ps) le_rfl
  rw [mkProceso_eq]
  simp only [mkRoundRobinScheduler]
  split_ifs with h1 h2 h3 h4 <;> simp_all

/-- Witness for C7: a blank id is rejected with its message, quantum 0 is
rejected, and a valid one-process run completes. -/
theorem construction_validation_witness :
    mkProceso " " 5 1 0 = Except.error "El PID no puede estar vacío" ∧
    (∃ e, mkRoundRobinScheduler 0 = Except.error e) ∧
    (rrLoop 3 (rrMeasure (enumQueue 0 [⟨"P1", 5, 1, 0, 5, none, none⟩])) 0
        (enumQueue 0 [⟨"P1", 5, 1, 0, 5, none, none⟩])).2.2 = [] := by
  have h := construction_validation " " 5 1 0 0 3 [⟨"P1", 5, 1, 0, 5, none, none⟩]
    (by decide) (by decide)
  exact ⟨h.2.1 (by decide), h.2.2.2.2.1.mpr (by decide), h.2.2.2.2.2⟩

/-- Claim C8: with a positive quantum the Round-Robin loop terminates within
the finite total-remaining-work measure (the queue is fully drained for every
sufficient fuel), and FCFS visits each process exactly once, emitting exactly
one segment per input process. -/
theorem planificar_terminates (q : Int) (ps : List Proceso) (hq : 1 ≤ q)
    (hv : ∀ p ∈ ps, p.Valid) :
    (∀ fuel, rrMeasure (enumQueue 0 ps) ≤ fuel →
      (rrLoop q fuel 0 (enumQueue 0 ps)).2.2 = []) ∧
    (fcfsPlanificar ps).gantt.length = ps.length := by
  refine ⟨fun fuel hf => rrLoop_leftover_nil q hq fuel 0 _ hf, ?_⟩
  have h := congrArg List.length (fcfsLoop_map_pid 0 (sortLlegada ps))
  simp only [List.length_map] at h
  rw [fcfsPlanificar_gantt, h, sortLlegada, List.length_insertionSort]

/-- Witness for C8 at a concrete one-process run with quantum 3. -/
theorem planificar_terminates_witness :
    (rrLoop 3 (rrMeasure (enumQueue 0 [⟨"P2", 7, 1, 0, 7, none, none⟩])) 0
        (enumQueue 0 [⟨"P2", 7, 1, 0, 7, none, none⟩])).2.2 = [] ∧
    (fcfsPlanificar [⟨"P2", 7, 1, 0, 7, none, none⟩]).gantt.length = 1 :=
  ⟨(planificar_terminates 3 [⟨"P2", 7, 1, 0, 7, none, none⟩] (by decide) (by decide)).1
      _ le_rfl,
    (planificar_terminates 3 [⟨"P2", 7, 1, 0, 7, none, none⟩] (by decide) (by decide)).2⟩

/-! ### Single-CPU exclusivity: the Gantt sequence is chained in time -/

/-- A Gantt list is chained from time `t`: each segment starts no earlier than
`t`, ends no earlier than it starts, and the next segment is chained from its
end.  This is the single-CPU exclusivity invariant of the spec. -/
def ganttChained : Int → List GanttEntry → Prop
  | _, [] => True
  | t, g :: rest => t ≤ g.2.1 ∧ g.2.1 ≤ g.2.2 ∧ ganttChained g.2.2 rest

theorem ganttChained_mono {t t1 : Int} {l : List GanttEntry} (h : t1 ≤ t)
    (hc : ganttChained t l) : ganttChained t1 l := by
  cases l with
  | nil => trivial
  | cons g rest => exact ⟨le_trans h hc.1, hc.2.1, hc.2.2⟩

theorem ganttChained_chain_end_start {l : List GanttEntry} :
    ∀ {t : Int}, ganttChained t l → List.Chain' (fun a b => a.2.2 ≤ b.2.1) l := by
  induction l with
  | nil => intro t h; exact List.chain'_nil
  | cons g rest ih =>
    intro t h
    cases rest with
    | nil => simp
    | cons g2 rest2 =>
      exact List.chain'_cons.mpr ⟨h.2.2.1, ih h.2.2⟩

theorem ganttChained_chain_start {l : List GanttEntry} :
    ∀ {t : Int}, ganttChained t l → List.Chain' (fun a b => a.2.1 ≤ b.2.1) l := by
  induction l with
  | nil => intro t h; exact List.chain'_nil
  | cons g rest ih =>
    intro t h
    cases rest with
    | nil => simp
    | cons g2 rest2 =>
      exact List.chain'_cons.mpr ⟨le_trans h.2.1 h.2.2.1, ih h.2.2⟩

theorem fcfsLoop_chained : ∀ (t : Int) (ps : List Proceso),
    (∀ p ∈ ps, 0 ≤ p.duracion) → ganttChained t (fcfsLoop t ps).1
  | _, [], _ => trivial
  | t, p :: rest, hd => by
    have hp := hd p (List.mem_cons_self p rest)
    have hrest : ∀ p2 ∈ rest, 0 ≤ p2.duracion :=
      fun p2 hm => hd p2 (List.mem_cons_of_mem p hm)
    simp only [fcfsLoop, ganttChained]
    refine ⟨?_, ?_, fcfsLoop_chained _ rest hrest⟩
    · split <;> omega
    · omega

theorem rrLoop_chained (q : Int) (hq : 1 ≤ q) : ∀ (fuel : Nat) (t : Int)
    (queue : List (Nat × Proceso)), (∀ e ∈ queue, 1 ≤ e.2.tiempo_restante) →
    ganttChained t (rrLoop q fuel t queue).1 := by
  intro fuel
  induction fuel with
  | zero => intro t queue hr; trivial
  | succ fuel ih =>
    intro t queue hr
    cases queue with
    | nil => trivial
    | cons e rest =>
      obtain ⟨i, p⟩ := e
      have hp : 1 ≤ p.tiempo_restante := hr (i, p) (List.mem_cons_self (i, p) rest)
      have hrest : ∀ e2 ∈ rest, 1 ≤ e2.2.tiempo_restante :=
        fun e2 hm => hr e2 (List.mem_cons_of_mem (i, p) hm)
      simp only [rrLoop]
      rcases le_total q p.tiempo_restante with hle | hle
      · rw [min_eq_left hle]
        split
        · rename_i hpos
          simp only [ganttChained]
          refine ⟨?_, ?_, ?_⟩
          · split <;> omega
          · split <;> omega
          · apply ih
            intro e2 hm
            rcases List.mem_append.mp hm with hm | hm
            · exact hrest e2 hm
            · rcases List.mem_singleton.mp hm with rfl
              dsimp only
              omega
        · rename_i hpos
          simp only [ganttChained]
          refine ⟨?_, ?_, ?_⟩
          · split <;> omega
          · split <;> omega
          · exact ih _ rest hrest
      · rw [min_eq_right hle]
        split
        · rename_i hpos
          exact absurd hpos (by omega)
        · rename_i hpos
          simp only [ganttChained]
          refine ⟨?_, ?_, ?_⟩
          · split <;> omega
          · split <;> omega
          · exact ih _ rest hrest

theorem rrPlanificar_gantt (q : Int) (ps : List Proceso) :
    (rrPlanificar q ps).gantt = (rrLoop q (rrMeasure (enumQueue 0 ps)) 0 (enumQueue 0 ps)).1 := by
  cases ps with
  | nil => rfl
  | cons p rest => rfl

theorem enumQueue_restante (ps : List Proceso) (hv : ∀ p ∈ ps, p.Valid) :
    ∀ n, ∀ e ∈ enumQueue n ps, 1 ≤ e.2.tiempo_restante := by
  induction ps with
  | nil => intro n e he; cases he
  | cons p rest ih =>
    intro n e he
    rcases List.mem_cons.mp he with rfl | hm
    · obtain ⟨h1, h2, h3, h4, h5, h6⟩ := hv p (List.mem_cons_self p rest)
      dsimp only
      omega
    · exact ih (fun p2 hm2 => hv p2 (List.mem_cons_of_mem p hm2)) (n + 1) e hm

/-- Claim C4: for both schedulers the returned segment sequence has
non-decreasing start times and consecutive segments never overlap (each next
start is at least the previous end). -/
theorem gantt_no_overlap (q : Int) (ps : List Proceso) (hq : 1 ≤ q)
    (hv : ∀ p ∈ ps, p.Valid) :
    List.Chain' (fun a b => a.2.2 ≤ b.2.1) (fcfsPlanificar ps).gantt ∧
    List.Chain' (fun a b => a.2.1 ≤ b.2.1) (fcfsPlanificar ps).gantt ∧
    List.Chain' (fun a b => a.2.2 ≤ b.2.1) (rrPlanificar q ps).gantt ∧
    List.Chain' (fun a b => a.2.1 ≤ b.2.1) (rrPlanificar q ps).gantt := by
  have hsortv : ∀ p ∈ sortLlegada ps, 0 ≤ p.duracion := by
    intro p hm
    have : p ∈ ps := ((List.perm_insertionSort _ ps).mem_iff).mp hm
    obtain ⟨h1, h2, h3, h4, h5, h6⟩ := hv p this
    omega
  have hf := fcfsLoop_chained 0 (sortLlegada ps) hsortv
  have hrr := rrLoop_chained q hq (rrMeasure (enumQueue 0 ps)) 0 (enumQueue 0 ps)
    (enumQueue_restante ps hv 0)
  rw [fcfsPlanificar_gantt, rrPlanificar_gantt]
  exact ⟨ganttChained_chain_end_start hf, ganttChained_chain_start hf,
    ganttChained_chain_end_start hrr, ganttChained_chain_start hrr⟩

/-- Witness for C4 at a two-process scenario with a late arrival. -/
theorem gantt_no_overlap_witness :
    List.Chain' (fun a b => a.2.2 ≤ b.2.1)
      (fcfsPlanificar [⟨"A", 2, 0, 5, 2, none, none⟩, ⟨"B", 3, 0, 0, 3, none, none⟩]).gantt ∧
    List.Chain' (fun a b => a.2.2 ≤ b.2.1)
      (rrPlanificar 2 [⟨"A", 2, 0, 5, 2, none, none⟩, ⟨"B", 3, 0, 0, 3, none, none⟩]).gantt :=
  ⟨(gantt_no_overlap 2 [⟨"A", 2, 0, 5, 2, none, none⟩, ⟨"B", 3, 0, 0, 3, none, none⟩]
      (by decide) (by decide)).1,
    (gantt_no_overlap 2 [⟨"A", 2, 0, 5, 2, none, none⟩, ⟨"B", 3, 0, 0, 3, none, none⟩]
      (by decide) (by decide)).2.2.1⟩

/-- Claim C3 (violated by the code): at the failing input below, FCFS computes
the segment (5,7) for process "A" (and (0,3) for "B"), yet the publication
loop — which pairs the unsorted caller list with the arrival-sorted copy by
position — writes start 0 / finish 3 onto "A" and start 5 / finish 7 onto "B",
i.e. each record receives the other process's times. -/
theorem fcfs_publish_misaligned :
    (fcfsPlanificar [⟨"A", 2, 0, 5, 2, none, none⟩, ⟨"B", 3, 0, 0, 3, none, none⟩]).gantt =
      [("B", 0, 3), ("A", 5, 7)] ∧
    ((fcfsPlanificar [⟨"A", 2, 0, 5, 2, none, none⟩,
        ⟨"B", 3, 0, 0, 3, none, none⟩]).procesos.map
      (fun p => (p.pid, p.tiempo_inicio, p.tiempo_fin, p.tiempo_restante))) =
      [("A", some 0, some 3, 0), ("B", some 5, some 7, 0)] ∧
    (⟨"A", 2, 0, 5, 2, none, none⟩ : Proceso).Valid ∧
    (⟨"B", 3, 0, 0, 3, none, none⟩ : Proceso).Valid := by
  decide

/-- Claim C6 counterexample: with quantum 10 ≥ every burst, Round-Robin (which
never reorders by arrival) and FCFS (which sorts by arrival) disagree on a
valid input whose arrivals are out of order. -/
theorem rr_fcfs_diverge :
    (rrPlanificar 10 [⟨"A", 1, 0, 5, 1, none, none⟩, ⟨"B", 1, 0, 0, 1, none, none⟩]).gantt =
      [("A", 5, 6), ("B", 6, 7)] ∧
    (fcfsPlanificar [⟨"A", 1, 0, 5, 1, none, none⟩, ⟨"B", 1, 0, 0, 1, none, none⟩]).gantt =
      [("B", 0, 1), ("A", 5, 6)] ∧
    (∀ p ∈ [(⟨"A", 1, 0, 5, 1, none, none⟩ : Proceso), ⟨"B", 1, 0, 0, 1, none, none⟩],
      p.Valid ∧ p.duracion ≤ 10) ∧
    (rrPlanificar 10 [⟨"A", 1, 0, 5, 1, none, none⟩, ⟨"B", 1, 0, 0, 1, none, none⟩]).gantt ≠
      (fcfsPlanificar [⟨"A", 1, 0, 5, 1, none, none⟩, ⟨"B", 1, 0, 0, 1, none, none⟩]).gantt := by
  decide

theorem enumQueue_length : ∀ (ps : List Proceso) (n : Nat),
    (enumQueue n ps).length = ps.length
  | [], _ => rfl
  | p :: rest, n => by
    simp only [enumQueue, List.length_cons, enumQueue_length rest]

theorem length_le_rrMeasure : ∀ (l : List (Nat × Proceso)), l.length ≤ rrMeasure l
  | [] => le_refl 0
  | e :: rest => by
    obtain ⟨i, p⟩ := e
    rw [rrMeasure_cons, List.length_cons]
    have := length_le_rrMeasure rest
    omega

/-- When no process needs more than a quantum, one Round-Robin turn finishes
each process, so the loop visits the queue exactly in order like FCFS. -/
theorem rrLoop_eq_fcfs (q : Int) : ∀ (ps : List Proceso) (fuel n : Nat) (t : Int),
    (∀ p ∈ ps, 1 ≤ p.tiempo_restante ∧ p.tiempo_restante ≤ q ∧
      p.tiempo_restante = p.duracion) →
    ps.length ≤ fuel →
    (rrLoop q fuel t (enumQueue n ps)).1 = (fcfsLoop t ps).1 := by
  intro ps
  induction ps with
  | nil =>
    intro fuel n t hh hf
    cases fuel <;> rfl
  | cons p rest ih =>
    intro fuel n t hh hf
    obtain ⟨hp1, hp2, hp3⟩ := hh p (List.mem_cons_self p rest)
    have hrest := fun p2 hm => hh p2 (List.mem_cons_of_mem p hm)
    cases fuel with
    | zero => simp at hf
    | succ fuel =>
      simp only [enumQueue, rrLoop, fcfsLoop]
      rw [min_eq_right hp2]
      rw [if_neg (by omega)]
      rw [ih fuel (n + 1) _ hrest (by simp at hf; omega)]
      rw [hp3]

/-- Claim C6 amended: Round-Robin with quantum at least every burst produces
exactly the FCFS segment sequence provided the input is already ordered by
arrival (for ties, or all-zero arrivals, this is every input); the
counterexample `rr_fcfs_diverge` shows the unsorted case genuinely differs
because Round-Robin never sorts its queue by arrival. -/
theorem rr_eq_fcfs_of_sorted (q : Int) (ps : List Proceso) (hq : 1 ≤ q)
    (hv : ∀ p ∈ ps, p.Valid) (hmax : ∀ p ∈ ps, p.duracion ≤ q)
    (hs : List.Sorted (fun a b : Proceso => a.tiempo_llegada ≤ b.tiempo_llegada) ps) :
    (rrPlanificar q ps).gantt = (fcfsPlanificar ps).gantt := by
  rw [rrPlanificar_gantt, fcfsPlanificar_gantt, sortLlegada, hs.insertionSort_eq]
  apply rrLoop_eq_fcfs
  · intro p hm
    obtain ⟨h1, h2, h3, h4, h5, h6⟩ := hv p hm
    exact ⟨by omega, by rw [h4]; exact hmax p hm, h4⟩
  · rw [← enumQueue_length ps 0]
    exact length_le_rrMeasure _

/-- Witness for the amended C6 at a sorted two-process input. -/
theorem rr_eq_fcfs_of_sorted_witness :
    (rrPlanificar 10 [⟨"B", 1, 0, 0, 1, none, none⟩, ⟨"A", 1, 0, 5, 1, none, none⟩]).gantt =
      (fcfsPlanificar [⟨"B", 1, 0, 0, 1, none, none⟩, ⟨"A", 1, 0, 5, 1, none, none⟩]).gantt :=
  rr_eq_fcfs_of_sorted 10 [⟨"B", 1, 0, 0, 1, none, none⟩, ⟨"A", 1, 0, 5, 1, none, none⟩]
    (by decide) (by decide) (by decide)
    (by constructor
        · intro b hb
          rcases List.mem_cons.mp hb with rfl | hb
          · decide
          · cases hb
        · constructor
          · intro b hb
            cases hb
          · exact List.sorted_nil)

/-! ### Per-process slice structure of Round-Robin -/

theorem rrSlices_length (q : Nat) (hq : 1 ≤ q) : ∀ r, 1 ≤ r →
    (rrSlices q r).length = cldiv r q := by
  intro r
  induction r using Nat.strong_induction_on with
  | _ r ih =>
    intro hr
    rw [rrSlices]
    split
    · rename_i h
      have hrq : r ≤ q := by omega
      simp only [List.length_cons, List.length_nil, cldiv]
      rw [show r + q - 1 = (r - 1) + q by omega, Nat.add_div_right _ (by omega),
        Nat.div_eq_of_lt (by omega)]
    · rename_i h
      have hqr : q < r := by omega
      rw [List.length_cons, ih (r - q) (by omega) (by omega)]
      simp only [cldiv]
      rw [show r + q - 1 = (r - q + q - 1) + q by omega, Nat.add_div_right _ (by omega)]

theorem rrSlices_of_le {q r : Nat} (h : r ≤ q) : rrSlices q r = [r] := by
  rw [rrSlices, if_pos (Or.inr h)]

theorem rrSlices_of_gt {q r : Nat} (hq : 1 ≤ q) (h : q < r) :
    rrSlices q r = q :: rrSlices q (r - q) := by
  rw [rrSlices, if_neg (by omega)]


/-- The clock advance on dequeue: `if tiempo_actual < proceso.tiempo_llegada:
tiempo_actual = proceso.tiempo_llegada`. -/
def rrAvance (t : Int) (p : Proceso) : Int :=
  if t < p.tiempo_llegada then p.tiempo_llegada else t

/-- One continuing Round-Robin step: the dequeued process still has work left
after its slice, so it is re-enqueued at the tail with its remaining time
decremented by the slice. -/
theorem rrLoop_cons_continue (q : Int) (fuel : Nat) (t : Int) (i : Nat) (p : Proceso)
    (rest : List (Nat × Proceso)) (h : 0 < p.tiempo_restante - min q p.tiempo_restante) :
    ∃ pc : Proceso,
      (rrLoop q (fuel + 1) t ((i, p) :: rest)).1 =
        (p.pid, rrAvance t p, rrAvance t p + min q p.tiempo_restante) ::
          (rrLoop q fuel (rrAvance t p + min q p.tiempo_restante)
            (rest ++ [(i, pc)])).1 ∧
      pc.pid = p.pid ∧
      pc.tiempo_restante = p.tiempo_restante - min q p.tiempo_restante := by
  simp only [rrLoop, rrAvance]
  rw [if_pos h]
  exact ⟨_, rfl, by split <;> rfl, rfl⟩

/-- One finishing Round-Robin step: the dequeued process completes within its
slice and is not re-enqueued. -/
theorem rrLoop_cons_finish (q : Int) (fuel : Nat) (t : Int) (i : Nat) (p : Proceso)
    (rest : List (Nat × Proceso)) (h : ¬0 < p.tiempo_restante - min q p.tiempo_restante) :
    (rrLoop q (fuel + 1) t ((i, p) :: rest)).1 =
      (p.pid, rrAvance t p, rrAvance t p + min q p.tiempo_restante) ::
        (rrLoop q fuel (rrAvance t p + min q p.tiempo_restante) rest).1 := by
  simp only [rrLoop, rrAvance]
  rw [if_neg h]

/-- Key Round-Robin invariant: when at most one queue entry carries pid `x`,
the durations of the emitted segments with pid `x` are exactly the quantum
slices of that entry's remaining time (full quanta, then one short slice). -/
theorem rrLoop_filter_pid (q : Int) (hq : 1 ≤ q) (x : String) :
    ∀ (fuel : Nat) (t : Int) (queue : List (Nat × Proceso)),
      rrMeasure queue ≤ fuel →
      (∀ e ∈ queue, 1 ≤ e.2.tiempo_restante) →
      ((queue.filter (fun e => e.2.pid = x)).length ≤ 1) →
      ((rrLoop q fuel t queue).1.filter (fun g => g.1 = x)).map segDur =
        ((queue.filter (fun e => e.2.pid = x)).map
          (fun e => (rrSlices q.toNat e.2.tiempo_restante.toNat).map Int.ofNat)).flatten := by
  intro fuel
  induction fuel with
  | zero =>
    intro t queue hm hr h1
    cases queue with
    | nil => rfl
    | cons e rest =>
      rw [rrMeasure_cons e.1 e.2] at hm
      omega
  | succ fuel ih =>
    intro t queue hm hr h1
    cases queue with
    | nil => rfl
    | cons e rest =>
      obtain ⟨i, p⟩ := e
      rw [rrMeasure_cons] at hm
      have hp : 1 ≤ p.tiempo_restante := hr (i, p) (List.mem_cons_self _ _)
      have hrest : ∀ e2 ∈ rest, 1 ≤ e2.2.tiempo_restante :=
        fun e2 hm2 => hr e2 (List.mem_cons_of_mem _ hm2)
      rw [List.filter_cons] at h1
      by_cases hrun : 0 < p.tiempo_restante - min q p.tiempo_restante
      · obtain ⟨pc, heq, hcpid, hcrest⟩ := rrLoop_cons_continue q fuel t i p rest hrun
        have hminq : min q p.tiempo_restante = q := by omega
        rw [hminq] at heq hcrest hrun
        rw [heq]
        by_cases hx : p.pid = x
        · rw [if_pos (by simp [hx])] at h1
          simp only [List.length_cons] at h1
          have hre : rest.filter (fun e => e.2.pid = x) = [] :=
            List.length_eq_zero.mp (by omega)
          have hih := ih (rrAvance t p + q) (rest ++ [(i, pc)])
            (by rw [rrMeasure_append, rrMeasure_cons, rrMeasure_nil]
                omega)
            (by intro e2 hm2
                rcases List.mem_append.mp hm2 with hm2 | hm2
                · exact hrest e2 hm2
                · rcases List.mem_singleton.mp hm2 with rfl
                  show 1 ≤ pc.tiempo_restante
                  omega)
            (by rw [List.filter_append, hre, List.nil_append,
                  List.filter_cons_of_pos (by simp [hcpid, hx]), List.filter_nil]
                simp)
          rw [List.filter_cons_of_pos (by simp [hx]), List.map_cons, hih,
            List.filter_append, hre, List.nil_append,
            List.filter_cons_of_pos (by simp [hcpid, hx]), List.filter_nil,
            List.filter_cons_of_pos (by simp [hx]), hre]
          simp only [List.map_cons, List.map_nil, List.flatten_cons, List.flatten_nil,
            List.append_nil]
          rw [show pc.tiempo_restante.toNat = p.tiempo_restante.toNat - q.toNat by omega,
            @rrSlices_of_gt q.toNat p.tiempo_restante.toNat (by omega) (by omega),
            List.map_cons]
          simp only [segDur, Int.ofNat_eq_coe]
          congr 1
          omega
        · rw [if_neg (by simp [hx])] at h1
          have hih := ih (rrAvance t p + q) (rest ++ [(i, pc)])
            (by rw [rrMeasure_append, rrMeasure_cons, rrMeasure_nil]
                omega)
            (by intro e2 hm2
                rcases List.mem_append.mp hm2 with hm2 | hm2
                · exact hrest e2 hm2
                · rcases List.mem_singleton.mp hm2 with rfl
                  show 1 ≤ pc.tiempo_restante
                  omega)
            (by rw [List.filter_append,
                  List.filter_cons_of_neg (by simp [hcpid, hx]), List.filter_nil,
                  List.append_nil]
                exact h1)
          rw [List.filter_cons_of_neg (by simp [hx]), hih, List.filter_append,
            List.filter_cons_of_neg (by simp [hcpid, hx]), List.filter_nil,
            List.append_nil, List.filter_cons_of_neg (by simp [hx])]
      · rw [rrLoop_cons_finish q fuel t i p rest hrun]
        have hminr : min q p.tiempo_restante = p.tiempo_restante := by omega
        rw [hminr]
        by_cases hx : p.pid = x
        · rw [if_pos (by simp [hx])] at h1
          simp only [List.length_cons] at h1
          have hre : rest.filter (fun e => e.2.pid = x) = [] :=
            List.length_eq_zero.mp (by omega)
          have hih := ih (rrAvance t p + p.tiempo_restante) rest (by omega) hrest
            (by rw [hre]; simp)
          rw [List.filter_cons_of_pos (by simp [hx]), List.map_cons, hih, hre,
            List.filter_cons_of_pos (by simp [hx]), hre]
          simp only [List.map_cons, List.map_nil, List.flatten_cons, List.flatten_nil,
            List.append_nil]
          rw [rrSlices_of_le (by omega : p.tiempo_restante.toNat ≤ q.toNat), List.map_cons,
            List.map_nil]
          simp only [segDur, Int.ofNat_eq_coe]
          congr 1
          omega
        · rw [if_neg (by simp [hx])] at h1
          rw [List.filter_cons_of_neg (by simp [hx]),
            ih (rrAvance t p + p.tiempo_restante) rest (by omega) hrest h1,
            List.filter_cons_of_neg (by simp [hx])]

theorem enumQueue_filter (x : String) : ∀ (ps : List Proceso) (n : Nat),
    ((enumQueue n ps).filter (fun e => e.2.pid = x)).map (fun e => e.2) =
      ps.filter (fun p => p.pid = x) := by
  intro ps
  induction ps with
  | nil => intro n; rfl
  | cons p rest ih =>
    intro n
    simp only [enumQueue, List.filter_cons]
    by_cases hx : p.pid = x
    · rw [if_pos (by simp [hx]), if_pos (by simp [hx])]
      simp only [List.map_cons, ih (n + 1)]
    · rw [if_neg (by simp [hx]), if_neg (by simp [hx]), ih (n + 1)]

theorem filter_pid_eq_single {ps : List Proceso} (hn : (ps.map Proceso.pid).Nodup)
    {p : Proceso} (hp : p ∈ ps) :
    ps.filter (fun a => a.pid = p.pid) = [p] := by
  induction ps with
  | nil => cases hp
  | cons a rest ih =>
    rw [List.map_cons, List.nodup_cons] at hn
    rcases List.mem_cons.mp hp with heqp | hm
    · subst heqp
      rw [List.filter_cons_of_pos (by simp)]
      have hnil : rest.filter (fun b => b.pid = p.pid) = [] := by
        rw [List.filter_eq_nil_iff]
        intro b hb heq
        simp only [decide_eq_true_eq] at heq
        exact hn.1 (heq ▸ List.mem_map_of_mem Proceso.pid hb)
      rw [hnil]
    · have hne : ¬a.pid = p.pid := by
        intro heq
        exact hn.1 (heq ▸ List.mem_map_of_mem Proceso.pid hm)
      rw [List.filter_cons_of_neg (by simp [hne])]
      exact ih hn.2 hm

/-- Claim C2: under Round-Robin with positive quantum `q` each process
contributes segments whose durations are exactly its quantum slices — so
exactly `ceil(burst/q)` segments, all of length `q` except a possibly shorter
final one, and exactly one segment whenever `burst ≤ q` — and the concrete
single-process run P1(burst=10), q=3 gives the four stated segments. -/
theorem rr_segments_per_process (q : Int) (ps : List Proceso) (hq : 1 ≤ q)
    (hv : ∀ p ∈ ps, p.Valid) (hn : (ps.map Proceso.pid).Nodup)
    (p : Proceso) (hp : p ∈ ps) :
    ((rrPlanificar q ps).gantt.filter (fun g => g.1 = p.pid)).map segDur =
      (rrSlices q.toNat p.duracion.toNat).map Int.ofNat ∧
    ((rrPlanificar q ps).gantt.filter (fun g => g.1 = p.pid)).length =
      cldiv p.duracion.toNat q.toNat ∧
    (p.duracion ≤ q →
      ((rrPlanificar q ps).gantt.filter (fun g => g.1 = p.pid)).length = 1) ∧
    (rrPlanificar 3 [⟨"P1", 10, 1, 0, 10, none, none⟩]).gantt =
      [("P1", 0, 3), ("P1", 3, 6), ("P1", 6, 9), ("P1", 9, 10)] := by
  obtain ⟨hv1, hv2, hv3, hv4, hv5, hv6⟩ := hv p hp
  have henum := enumQueue_filter p.pid ps 0
  rw [filter_pid_eq_single hn hp] at henum
  have hlen1 : ((enumQueue 0 ps).filter (fun e => e.2.pid = p.pid)).length = 1 := by
    have := congrArg List.length henum
    simpa using this
  have hmain := rrLoop_filter_pid q hq p.pid (rrMeasure (enumQueue 0 ps)) 0
    (enumQueue 0 ps) le_rfl (enumQueue_restante ps hv 0) (by omega)
  rw [show ((enumQueue 0 ps).filter (fun e => e.2.pid = p.pid)).map
        (fun e => (rrSlices q.toNat e.2.tiempo_restante.toNat).map Int.ofNat) =
      (((enumQueue 0 ps).filter (fun e => e.2.pid = p.pid)).map (fun e => e.2)).map
        (fun c => (rrSlices q.toNat c.tiempo_restante.toNat).map Int.ofNat)
      by rw [List.map_map]; rfl] at hmain
  rw [henum] at hmain
  simp only [List.map_cons, List.map_nil, List.flatten_cons, List.flatten_nil,
    List.append_nil] at hmain
  rw [hv4] at hmain
  have hfirst : ((rrPlanificar q ps).gantt.filter (fun g => g.1 = p.pid)).map segDur =
      (rrSlices q.toNat p.duracion.toNat).map Int.ofNat := by
    rw [rrPlanificar_gantt]
    exact hmain
  refine ⟨hfirst, ?_, ?_, by decide⟩
  · have hlen := congrArg List.length hfirst
    simp only [List.length_map] at hlen
    rw [hlen, rrSlices_length q.toNat (by omega) p.duracion.toNat (by omega)]
  · intro hdq
    have hone : rrSlices q.toNat p.duracion.toNat = [p.duracion.toNat] :=
      rrSlices_of_le (by omega)
    have hlen := congrArg List.length hfirst
    simp only [List.length_map] at hlen
    rw [hlen, hone]
    rfl

/-- Witness for C2 at the concrete single-process scenario. -/
theorem rr_segments_per_process_witness :
    ((rrPlanificar 3 [⟨"P1", 10, 1, 0, 10, none, none⟩]).gantt.filter
      (fun g => g.1 = "P1")).map segDur = (rrSlices 3 10).map Int.ofNat ∧
    (rrPlanificar 3 [⟨"P1", 10, 1, 0, 10, none, none⟩]).gantt =
      [("P1", 0, 3), ("P1", 3, 6), ("P1", 6, 9), ("P1", 9, 10)] :=
  ⟨(rr_segments_per_process 3 [⟨"P1", 10, 1, 0, 10, none, none⟩] (by decide) (by decide)
      (by decide) ⟨"P1", 10, 1, 0, 10, none, none⟩ (by decide)).1,
    (rr_segments_per_process 3 [⟨"P1", 10, 1, 0, 10, none, none⟩] (by decide) (by decide)
      (by decide) ⟨"P1", 10, 1, 0, 10, none, none⟩ (by decide)).2.2.2⟩

/-! ### Dictionary lemmas for the metrics engine -/

theorem dictGet?_contains_true {α : Type} (d : List (String × α)) (k : String)
    (h : dictContains d k = true) : ∃ v, dictGet? d k = some v := by
  induction d with
  | nil => simp [dictContains] at h
  | cons e rest ih =>
    by_cases he : e.1 = k
    · exact ⟨e.2, by simp [dictGet?, List.find?, he]⟩
    · have h2 : dictContains rest k = true := by
        simpa [dictContains, he] using h
      obtain ⟨v, hv⟩ := ih h2
      exact ⟨v, by simpa [dictGet?, List.find?, he] using hv⟩

theorem dictGet?_contains_false {α : Type} (d : List (String × α)) (k : String)
    (h : dictContains d k = false) : dictGet? d k = none := by
  induction d with
  | nil => rfl
  | cons e rest ih =>
    simp only [dictContains, List.any_cons, Bool.or_eq_false_iff] at h
    simp only [dictGet?, List.find?, h.1]
    exact ih (by simp [dictContains, h.2])

theorem dictGet?_append_one {α : Type} (d : List (String × α)) (k : String) (v : α)
    (x : String) :
    dictGet? (d ++ [(k, v)]) x =
      (dictGet? d x).or (if k = x then some v else none) := by
  induction d with
  | nil =>
    by_cases hk : k = x <;> simp [dictGet?, List.find?, hk, Option.or]
  | cons e rest ih =>
    by_cases he : e.1 = x
    · simp [dictGet?, List.find?, he, Option.or]
    · simpa [dictGet?, List.find?, he, Option.or] using ih

theorem dictGet?_map_replace {α : Type} (d : List (String × α)) (k : String) (v : α)
    (x : String) :
    dictGet? (d.map (fun e => if e.1 = k then (k, v) else e)) x =
      if k = x then (dictGet? d x).map (fun _ => v) else dictGet? d x := by
  induction d with
  | nil => by_cases hk : k = x <;> simp [dictGet?, hk]
  | cons e rest ih =>
    simp only [List.map_cons]
    by_cases he : e.1 = k
    · rw [if_pos he]
      by_cases hk : k = x
      · subst hk
        simp only [dictGet?] at ih ⊢
        rw [List.find?_cons_of_pos _ (by simp), List.find?_cons_of_pos _ (by simp [he])]
        simp
      · simp only [dictGet?] at ih ⊢
        rw [List.find?_cons_of_neg _ (by simp [hk]),
          List.find?_cons_of_neg _ (by simp [he, hk]), if_neg hk]
        have hih := ih
        rw [if_neg hk] at hih
        exact hih
    · rw [if_neg he]
      by_cases hex : e.1 = x
      · have hk : ¬k = x := fun hkx => he (hex.trans hkx.symm)
        simp only [dictGet?] at ih ⊢
        rw [List.find?_cons_of_pos _ (by simp [hex]),
          List.find?_cons_of_pos _ (by simp [hex]), if_neg hk]
      · simp only [dictGet?] at ih ⊢
        rw [List.find?_cons_of_neg _ (by simp [hex]),
          List.find?_cons_of_neg _ (by simp [hex])]
        exact ih

theorem dictGet?_upsert {α : Type} (d : List (String × α)) (k : String) (v : α)
    (x : String) :
    dictGet? (dictUpsert d k v) x = if k = x then some v else dictGet? d x := by
  by_cases hc : dictContains d k
  · rw [dictUpsert, if_pos hc, dictGet?_map_replace]
    by_cases hk : k = x
    · subst hk
      obtain ⟨w, hw⟩ := dictGet?_contains_true d k hc
      rw [if_pos rfl, if_pos rfl, hw]
      rfl
    · rw [if_neg hk, if_neg hk]
  · rw [dictUpsert, if_neg hc, dictGet?_append_one]
    by_cases hk : k = x
    · subst hk
      rw [dictGet?_contains_false d k (by simpa using hc)]
      simp
    · rw [if_neg hk, if_neg hk]
      cases h : dictGet? d x <;> rfl

/-- First listed segment start for a pid: the value the `primer_inicio` dict
ends up holding (first write wins). -/
def primerInicioSeg (g : List GanttEntry) (x : String) : Option Int :=
  ((g.filter (fun e => e.1 = x)).head?).map (fun e => e.2.1)

/-- Last listed segment end for a pid: the value the `ultimo_fin` dict ends up
holding (last write wins). -/
def ultimoFinSeg (g : List GanttEntry) (x : String) : Option Int :=
  ((g.filter (fun e => e.1 = x)).getLast?).map (fun e => e.2.2)

theorem primerInicioSeg_cons (e : GanttEntry) (rest : List GanttEntry) (x : String) :
    primerInicioSeg (e :: rest) x =
      if e.1 = x then some e.2.1 else primerInicioSeg rest x := by
  unfold primerInicioSeg
  by_cases hex : e.1 = x
  · rw [if_pos hex, List.filter_cons_of_pos (by simp [hex]), List.head?_cons]
    rfl
  · rw [if_neg hex, List.filter_cons_of_neg (by simp [hex])]

theorem ultimoFinSeg_cons (e : GanttEntry) (rest : List GanttEntry) (x : String) :
    ultimoFinSeg (e :: rest) x =
      if e.1 = x then (ultimoFinSeg rest x).or (some e.2.2)
      else ultimoFinSeg rest x := by
  unfold ultimoFinSeg
  by_cases hex : e.1 = x
  · rw [if_pos hex, List.filter_cons_of_pos (by simp [hex]), List.getLast?_cons]
    cases hl : (rest.filter (fun a => a.1 = x)).getLast? <;> rfl
  · rw [if_neg hex, List.filter_cons_of_neg (by simp [hex])]

theorem buildDicts_fst_general :
    ∀ (g : List GanttEntry) (acc : List (String × Int) × List (String × Int)) (x : String),
      dictGet? (g.foldl buildStep acc).1 x = (dictGet? acc.1 x).or (primerInicioSeg g x) := by
  intro g
  induction g with
  | nil =>
    intro acc x
    show dictGet? acc.1 x = (dictGet? acc.1 x).or (primerInicioSeg [] x)
    cases dictGet? acc.1 x <;> rfl
  | cons e rest ih =>
    intro acc x
    rw [List.foldl_cons, ih, primerInicioSeg_cons]
    by_cases hex : e.1 = x
    · rw [if_pos hex]
      by_cases hc : dictContains acc.1 e.1
      · have hc2 : dictContains acc.1 x = true := by rw [← hex]; exact hc
        obtain ⟨w, hw⟩ := dictGet?_contains_true acc.1 x hc2
        simp only [buildStep, if_pos hc, hw]
        rfl
      · have hc2 : dictContains acc.1 x = false := by
          rw [← hex]; simpa using hc
        simp only [buildStep, if_neg hc, dictGet?_append_one,
          dictGet?_contains_false acc.1 x hc2, if_pos hex]
        rfl
    · rw [if_neg hex]
      by_cases hc : dictContains acc.1 e.1
      · simp only [buildStep, if_pos hc]
      · simp only [buildStep, if_neg hc, dictGet?_append_one, if_neg hex]
        cases dictGet? acc.1 x <;> rfl

theorem buildDicts_snd_general :
    ∀ (g : List GanttEntry) (acc : List (String × Int) × List (String × Int)) (x : String),
      dictGet? (g.foldl buildStep acc).2 x = (ultimoFinSeg g x).or (dictGet? acc.2 x) := by
  intro g
  induction g with
  | nil =>
    intro acc x
    show dictGet? acc.2 x = (ultimoFinSeg [] x).or (dictGet? acc.2 x)
    rfl
  | cons e rest ih =>
    intro acc x
    rw [List.foldl_cons, ih, ultimoFinSeg_cons]
    have hupd : dictGet? (buildStep acc e).2 x =
        if e.1 = x then some e.2.2 else dictGet? acc.2 x := by
      simp only [buildStep]
      rw [dictGet?_upsert]
    by_cases hex : e.1 = x
    · rw [hupd, if_pos hex, if_pos hex]
      cases ultimoFinSeg rest x <;> rfl
    · rw [hupd, if_neg hex, if_neg hex]

theorem buildDicts_fst (g : List GanttEntry) (x : String) :
    dictGet? (buildDicts g).1 x = primerInicioSeg g x := by
  rw [buildDicts, buildDicts_fst_general]
  rfl

theorem buildDicts_snd (g : List GanttEntry) (x : String) :
    dictGet? (buildDicts g).2 x = ultimoFinSeg g x := by
  rw [buildDicts, buildDicts_snd_general]
  cases ultimoFinSeg g x <;> rfl

/-! ### The per-process loop of `calcular_metricas` -/

theorem metricasLoop_other (d : List (String × Int) × List (String × Int)) :
    ∀ (ps : List Proceso)
      (acc : List (String × MetricaIndividual) × List Int × List Int × List Int)
      (x : String), (∀ p ∈ ps, ¬p.pid = x) →
      dictGet? (metricasLoop d ps acc).1 x = dictGet? acc.1 x := by
  intro ps
  induction ps with
  | nil => intro acc x h; rfl
  | cons a rest ih =>
    intro acc x h
    have ha : ¬a.pid = x := h a (List.mem_cons_self a rest)
    have hrest := fun p hp => h p (List.mem_cons_of_mem a hp)
    cases h1 : dictGet? d.1 a.pid with
    | none =>
      simp only [metricasLoop, h1]
      exact ih _ x hrest
    | some vi =>
      cases h2 : dictGet? d.2 a.pid with
      | none =>
        simp only [metricasLoop, h1, h2]
        exact ih _ x hrest
      | some vf =>
        simp only [metricasLoop, h1, h2]
        rw [ih _ x hrest]
        show dictGet? (dictUpsert acc.1 a.pid _) x = dictGet? acc.1 x
        rw [dictGet?_upsert, if_neg ha]

theorem metricasLoop_absent (d : List (String × Int) × List (String × Int)) :
    ∀ (ps : List Proceso)
      (acc : List (String × MetricaIndividual) × List Int × List Int × List Int)
      (x : String), dictGet? d.1 x = none →
      dictGet? (metricasLoop d ps acc).1 x = dictGet? acc.1 x := by
  intro ps
  induction ps with
  | nil => intro acc x h; rfl
  | cons a rest ih =>
    intro acc x h
    cases h1 : dictGet? d.1 a.pid with
    | none =>
      simp only [metricasLoop, h1]
      exact ih _ x h
    | some vi =>
      cases h2 : dictGet? d.2 a.pid with
      | none =>
        simp only [metricasLoop, h1, h2]
        exact ih _ x h
      | some vf =>
        have ha : ¬a.pid = x := by
          intro heq
          rw [heq] at h1
          rw [h1] at h
          cases h
        simp only [metricasLoop, h1, h2]
        rw [ih _ x h]
        show dictGet? (dictUpsert acc.1 a.pid _) x = dictGet? acc.1 x
        rw [dictGet?_upsert, if_neg ha]

theorem metricasLoop_member (d : List (String × Int) × List (String × Int)) :
    ∀ (ps : List Proceso)
      (acc : List (String × MetricaIndividual) × List Int × List Int × List Int)
      (p : Proceso), p ∈ ps → (ps.map Proceso.pid).Nodup →
      ∀ vi vf : Int, dictGet? d.1 p.pid = some vi → dictGet? d.2 p.pid = some vf →
      dictGet? (metricasLoop d ps acc).1 p.pid =
        some ⟨vi - p.tiempo_llegada, (vf - p.tiempo_llegada) - p.duracion,
          vf - p.tiempo_llegada, p.duracion, p.tiempo_llegada⟩ := by
  intro ps
  induction ps with
  | nil => intro acc p hp; cases hp
  | cons a rest ih =>
    intro acc p hp hn vi vf h1 h2
    rw [List.map_cons, List.nodup_cons] at hn
    rcases List.mem_cons.mp hp with heqp | hm
    · subst heqp
      simp only [metricasLoop, h1, h2]
      rw [metricasLoop_other d rest _ p.pid
        (fun b hb heq => hn.1 (heq ▸ List.mem_map_of_mem Proceso.pid hb))]
      show dictGet? (dictUpsert acc.1 p.pid _) p.pid = _
      rw [dictGet?_upsert, if_pos rfl]
    · cases ha1 : dictGet? d.1 a.pid with
      | none =>
        simp only [metricasLoop, ha1]
        exact ih _ p hm hn.2 vi vf h1 h2
      | some wi =>
        cases ha2 : dictGet? d.2 a.pid with
        | none =>
          simp only [metricasLoop, ha1, ha2]
          exact ih _ p hm hn.2 vi vf h1 h2
        | some wf =>
          simp only [metricasLoop, ha1, ha2]
          exact ih _ p hm hn.2 vi vf h1 h2

theorem metricasLoop_lists (d : List (String × Int) × List (String × Int)) :
    ∀ (ps : List Proceso)
      (acc : List (String × MetricaIndividual) × List Int × List Int × List Int),
      (metricasLoop d ps acc).2.1 = acc.2.1 ++
        (ps.filter (fun p => (dictGet? d.1 p.pid).isSome && (dictGet? d.2 p.pid).isSome)).map
          (fun p => (dictGet? d.1 p.pid).getD 0 - p.tiempo_llegada) ∧
      (metricasLoop d ps acc).2.2.1 = acc.2.2.1 ++
        (ps.filter (fun p => (dictGet? d.1 p.pid).isSome && (dictGet? d.2 p.pid).isSome)).map
          (fun p => ((dictGet? d.2 p.pid).getD 0 - p.tiempo_llegada) - p.duracion) ∧
      (metricasLoop d ps acc).2.2.2 = acc.2.2.2 ++
        (ps.filter (fun p => (dictGet? d.1 p.pid).isSome && (dictGet? d.2 p.pid).isSome)).map
          (fun p => (dictGet? d.2 p.pid).getD 0 - p.tiempo_llegada) := by
  intro ps
  induction ps with
  | nil => intro acc; exact ⟨by simp [metricasLoop], by simp [metricasLoop], by simp [metricasLoop]⟩
  | cons a rest ih =>
    intro acc
    cases h1 : dictGet? d.1 a.pid with
    | none =>
      simp only [metricasLoop, h1]
      rw [List.filter_cons_of_neg (by simp [h1])]
      exact ih acc
    | some vi =>
      cases h2 : dictGet? d.2 a.pid with
      | none =>
        simp only [metricasLoop, h1, h2]
        rw [List.filter_cons_of_neg (by simp [h1, h2])]
        exact ih acc
      | some vf =>
        simp only [metricasLoop, h1, h2]
        rw [List.filter_cons_of_pos (by simp [h1, h2])]
        obtain ⟨e1, e2, e3⟩ := ih
          (dictUpsert acc.1 a.pid
            ⟨vi - a.tiempo_llegada, (vf - a.tiempo_llegada) - a.duracion,
              vf - a.tiempo_llegada, a.duracion, a.tiempo_llegada⟩,
            acc.2.1 ++ [vi - a.tiempo_llegada],
            acc.2.2.1 ++ [(vf - a.tiempo_llegada) - a.duracion],
            acc.2.2.2 ++ [vf - a.tiempo_llegada])
        refine ⟨?_, ?_, ?_⟩
        · rw [e1, List.map_cons, h1, List.append_assoc, List.singleton_append]
          rfl
        · rw [e2, List.map_cons, h2, List.append_assoc, List.singleton_append]
          rfl
        · rw [e3, List.map_cons, h2, List.append_assoc, List.singleton_append]
          rfl

/-- Processes that own at least one segment in the Gantt list — the ones the
metrics loop does not skip. -/
def presentes (ps : List Proceso) (g : List GanttEntry) : List Proceso :=
  ps.filter (fun p => !(g.filter (fun e => e.1 = p.pid)).isEmpty)

theorem buildDicts_present (g : List GanttEntry) (x : String) :
    ((dictGet? (buildDicts g).1 x).isSome && (dictGet? (buildDicts g).2 x).isSome) =
      !(g.filter (fun e => e.1 = x)).isEmpty := by
  rw [buildDicts_fst, buildDicts_snd]
  unfold primerInicioSeg ultimoFinSeg
  cases hf : g.filter (fun e => e.1 = x) with
  | nil => rfl
  | cons e rest =>
    rw [List.head?_cons, List.getLast?_cons]
    rfl

/-- Claim C5 amended: `calcular_metricas` derives, for each process whose id
appears in the segments, `response = first listed segment start − arrival`,
`turnaround = last listed segment end − arrival` and
`wait = turnaround − burst` (first/last listed coincide with min start and max
end exactly when that id's segments are listed in chronological order, which
the schedulers guarantee but arbitrary inputs do not); processes absent from
the segments are skipped; aggregates are the arithmetic means over the present
processes; an empty process or segment list yields the empty report with zero
aggregates and no error. -/
theorem calcular_metricas_amended (ps : List Proceso) (g : List GanttEntry)
    (hn : (ps.map Proceso.pid).Nodup) :
    (calcularMetricas [] g = ⟨[], 0, 0, 0⟩) ∧
    (calcularMetricas ps [] = ⟨[], 0, 0, 0⟩) ∧
    (∀ p ∈ ps, ∀ s f : Int, primerInicioSeg g p.pid = some s →
      ultimoFinSeg g p.pid = some f →
      dictGet? (calcularMetricas ps g).metricas_individuales p.pid =
        some ⟨s - p.tiempo_llegada, (f - p.tiempo_llegada) - p.duracion,
          f - p.tiempo_llegada, p.duracion, p.tiempo_llegada⟩) ∧
    (∀ p ∈ ps, g.filter (fun e => e.1 = p.pid) = [] →
      dictGet? (calcularMetricas ps g).metricas_individuales p.pid = none) ∧
    ((calcularMetricas ps g).tiempo_respuesta_promedio =
      if presentes ps g = [] then 0
      else ((presentes ps g).map
          (fun p => (primerInicioSeg g p.pid).getD 0 - p.tiempo_llegada)).sum /
        ((presentes ps g).length : ℚ)) ∧
    ((calcularMetricas ps g).tiempo_espera_promedio =
      if presentes ps g = [] then 0
      else ((presentes ps g).map
          (fun p => ((ultimoFinSeg g p.pid).getD 0 - p.tiempo_llegada) - p.duracion)).sum /
        ((presentes ps g).length : ℚ)) ∧
    ((calcularMetricas ps g).tiempo_retorno_promedio =
      if presentes ps g = [] then 0
      else ((presentes ps g).map
          (fun p => (ultimoFinSeg g p.pid).getD 0 - p.tiempo_llegada)).sum /
        ((presentes ps g).length : ℚ)) := by
  refine ⟨by simp [calcularMetricas], by simp [calcularMetricas], ?_⟩
  by_cases hps : ps = []
  · subst hps
    refine ⟨fun p hp => absurd hp (by simp), fun p hp => absurd hp (by simp), ?_, ?_, ?_⟩ <;>
      simp [calcularMetricas, presentes]
  by_cases hg : g = []
  · subst hg
    refine ⟨?_, ?_, ?_, ?_, ?_⟩
    · intro p hp s f hs hf
      cases hs
    · intro p hp hfil
      simp [calcularMetricas]
      rfl
    all_goals
      simp only [presentes, List.filter_nil, List.isEmpty_nil]
      rw [show ps.filter (fun p => !true) = [] by simp, if_pos rfl]
      simp [calcularMetricas]
  have hcond : ¬(ps.isEmpty || g.isEmpty) = true := by
    simp [hps, hg]
  have hmeq : calcularMetricas ps g =
      ⟨(metricasLoop (buildDicts g) ps ([], [], [], [])).1,
        if 0 < (metricasLoop (buildDicts g) ps ([], [], [], [])).2.1.length then
          ((metricasLoop (buildDicts g) ps ([], [], [], [])).2.1.sum : ℚ) /
            ((metricasLoop (buildDicts g) ps ([], [], [], [])).2.1.length : ℚ) else 0,
        if 0 < (metricasLoop (buildDicts g) ps ([], [], [], [])).2.1.length then
          ((metricasLoop (buildDicts g) ps ([], [], [], [])).2.2.1.sum : ℚ) /
            ((metricasLoop (buildDicts g) ps ([], [], [], [])).2.1.length : ℚ) else 0,
        if 0 < (metricasLoop (buildDicts g) ps ([], [], [], [])).2.1.length then
          ((metricasLoop (buildDicts g) ps ([], [], [], [])).2.2.2.sum : ℚ) /
            ((metricasLoop (buildDicts g) ps ([], [], [], [])).2.1.length : ℚ) else 0⟩ := by
    rw [calcularMetricas, if_neg hcond]
  obtain ⟨e1, e2, e3⟩ := metricasLoop_lists (buildDicts g) ps ([], [], [], [])
  have hfil : ps.filter (fun p => (dictGet? (buildDicts g).1 p.pid).isSome &&
      (dictGet? (buildDicts g).2 p.pid).isSome) = presentes ps g := by
    unfold presentes
    exact List.filter_congr (fun p hp => buildDicts_present g p.pid)
  rw [hfil] at e1 e2 e3
  simp only [buildDicts_fst, buildDicts_snd, List.nil_append] at e1 e2 e3
  have hlen : (metricasLoop (buildDicts g) ps ([], [], [], [])).2.1.length =
      (presentes ps g).length := by
    rw [e1, List.length_map]
  refine ⟨?_, ?_, ?_, ?_, ?_⟩
  · intro p hp s f hs hf
    rw [hmeq]
    exact metricasLoop_member (buildDicts g) ps ([], [], [], []) p hp hn s f
      (by rw [buildDicts_fst]; exact hs) (by rw [buildDicts_snd]; exact hf)
  · intro p hp hfilnil
    rw [hmeq]
    show dictGet? (metricasLoop (buildDicts g) ps ([], [], [], [])).1 p.pid = none
    rw [metricasLoop_absent (buildDicts g) ps ([], [], [], []) p.pid
      (by rw [buildDicts_fst]; unfold primerInicioSeg; rw [hfilnil]; rfl)]
    rfl
  · rw [hmeq]
    show (if 0 < (metricasLoop (buildDicts g) ps ([], [], [], [])).2.1.length then _ else 0) = _
    rw [hlen, e1]
    by_cases hpre : presentes ps g = []
    · rw [if_pos hpre, hpre]
      rfl
    · rw [if_neg hpre, if_pos (by simpa [List.length_pos] using hpre)]
  · rw [hmeq]
    show (if 0 < (metricasLoop (buildDicts g) ps ([], [], [], [])).2.1.length then _ else 0) = _
    rw [hlen, e2]
    by_cases hpre : presentes ps g = []
    · rw [if_pos hpre, hpre]
      rfl
    · rw [if_neg hpre, if_pos (by simpa [List.length_pos] using hpre)]
  · rw [hmeq]
    show (if 0 < (metricasLoop (buildDicts g) ps ([], [], [], [])).2.1.length then _ else 0) = _
    rw [hlen, e3]
    by_cases hpre : presentes ps g = []
    · rw [if_pos hpre, hpre]
      rfl
    · rw [if_neg hpre, if_pos (by simpa [List.length_pos] using hpre)]

/-- Claim C5 counterexample: on segments listed out of chronological order the
code does not take the minimum start and maximum end.  For P1(arrival 0,
burst 1) with segments [(P1,5,6),(P1,0,1)] the starts are {5,0} and ends
{6,1}; the claim predicts response = min−arrival = 0 and turnaround =
max−arrival = 6, but the code reports response 5 (first listed start) and
turnaround 1 (last listed end). -/
theorem calcular_metricas_min_max_cex :
    dictGet? (calcularMetricas [⟨"P1", 1, 0, 0, 1, none, none⟩]
        [("P1", 5, 6), ("P1", 0, 1)]).metricas_individuales "P1" =
      some ⟨5, 0, 1, 1, 0⟩ ∧
    ([("P1", 5, 6), ("P1", 0, 1)].filter (fun e : GanttEntry => e.1 = "P1")).map
      (fun e => e.2.1) = [5, 0] ∧
    ([("P1", 5, 6), ("P1", 0, 1)].filter (fun e : GanttEntry => e.1 = "P1")).map
      (fun e => e.2.2) = [6, 1] ∧
    (⟨"P1", 1, 0, 0, 1, none, none⟩ : Proceso).Valid ∧
    (min (5 : Int) 0 - 0 ≠ 5) ∧
    (max (6 : Int) 1 - 0 ≠ 1) := by
  decide

/-- Witness for the amended C5 at a concrete one-process, one-segment input. -/
theorem calcular_metricas_amended_witness :
    dictGet? (calcularMetricas [⟨"P1", 2, 0, 0, 2, none, none⟩]
        [("P1", 3, 5)]).metricas_individuales "P1" = some ⟨3, 3, 5, 2, 0⟩ :=
  (calcular_metricas_amended [⟨"P1", 2, 0, 0, 2, none, none⟩] [("P1", 3, 5)]
      (by decide)).2.2.1 ⟨"P1", 2, 0, 0, 2, none, none⟩ (by decide) 3 5
    (by decide) (by decide)
